import Mathlib

/-!
Verification of the scripthash query core and REST layer of an
address-indexed blockchain indexer (src/query.rs and src/rest.rs).

Modelling conventions:
* 256-bit transaction ids (`Sha256dHash`) are modelled as `Nat`, ordered the
  way the Rust code orders them (lexicographically on the byte array).
* `u32`/`u64`/`i32`/`i64` arithmetic is modelled on `Nat`/`Int` with explicit
  `% 2^w` wrapping and two's-complement conversions where the code casts.
* The external SHA256 / SHA256d digest functions (from the `crypto` and
  `bitcoin` crates) are taken as parameters: every theorem about them holds
  for an arbitrary digest function.
* `std::collections::HashMap` is modelled as an association list with
  replace-on-insert; the code only ever observes such maps after sorting,
  so the (arbitrary) iteration order is irrelevant to the stated results.
-/

section AssocModel

variable {κ ν : Type} [DecidableEq κ]

/-- `HashMap::insert`: replace the binding of `k` if present, else add it. -/
def hmInsert (k : κ) (v : ν) : List (κ × ν) → List (κ × ν)
  | [] => [(k, v)]
  | p :: rest => if p.1 = k then (k, v) :: rest else p :: hmInsert k v rest

/-- `HashMap::get`: the value bound to `k`, if any. -/
def hmLookup (k : κ) (m : List (κ × ν)) : Option ν :=
  (m.find? (fun p => p.1 = k)).map (fun p => p.2)

/-- `HashMap::remove`: drop the binding of `k` (no-op when absent). -/
def hmRemove (k : κ) (m : List (κ × ν)) : List (κ × ν) :=
  m.filter (fun p => p.1 ≠ k)

/-- The key list of the association-list map. -/
def hmKeys (m : List (κ × ν)) : List κ :=
  m.map Prod.fst

theorem hmLookup_cons (t : κ) (p : κ × ν) (rest : List (κ × ν)) :
    hmLookup t (p :: rest) = if p.1 = t then some p.2 else hmLookup t rest := by
  by_cases h : p.1 = t <;> simp [hmLookup, List.find?, h]

theorem hmLookup_hmInsert (k t : κ) (v : ν) (m : List (κ × ν)) :
    hmLookup t (hmInsert k v m) = if t = k then some v else hmLookup t m := by
  induction m with
  | nil =>
    by_cases h : t = k
    · simp [hmInsert, hmLookup_cons, h]
    · have hk : ¬ k = t := fun hh => h hh.symm
      simp [hmInsert, hmLookup_cons, h, hk, hmLookup]
  | cons p rest ih =>
    by_cases h1 : p.1 = k
    · by_cases h2 : t = k
      · simp [hmInsert, h1, hmLookup_cons, h2]
      · have hk : ¬ k = t := fun hh => h2 hh.symm
        have hp : ¬ p.1 = t := fun hh => h2 (hh.symm.trans h1)
        simp [hmInsert, h1, hmLookup_cons, h2, hk, hp]
    · simp only [hmInsert, if_neg h1, hmLookup_cons, ih]
      by_cases hp : p.1 = t
      · have hne : ¬ t = k := fun hh => h1 (hp.trans hh)
        simp [hp, hne]
      · simp [hp]

theorem mem_hmInsert {k : κ} {v : ν} {m : List (κ × ν)} {q : κ × ν}
    (h : q ∈ hmInsert k v m) : q = (k, v) ∨ q ∈ m := by
  induction m with
  | nil => simpa [hmInsert] using h
  | cons p rest ih =>
    by_cases h1 : p.1 = k
    · simp only [hmInsert, if_pos h1, List.mem_cons] at h
      rcases h with h | h
      · exact Or.inl h
      · exact Or.inr (List.mem_cons_of_mem _ h)
    · simp only [hmInsert, if_neg h1, List.mem_cons] at h
      rcases h with h | h
      · exact Or.inr (h ▸ List.mem_cons_self _ _)
      · rcases ih h with h' | h'
        · exact Or.inl h'
        · exact Or.inr (List.mem_cons_of_mem _ h')

theorem hmKeys_hmInsert (k : κ) (v : ν) (m : List (κ × ν)) :
    hmKeys (hmInsert k v m) = if k ∈ hmKeys m then hmKeys m else hmKeys m ++ [k] := by
  induction m with
  | nil => simp [hmInsert, hmKeys]
  | cons p rest ih =>
    by_cases h1 : p.1 = k
    · simp [hmInsert, hmKeys, h1]
    · have hne : ¬ k = p.1 := fun h => h1 h.symm
      by_cases h2 : k ∈ hmKeys rest
      · simp only [hmKeys, List.map_cons] at ih ⊢
        simp only [hmKeys] at h2
        simp [hmInsert, if_neg h1, ih, h2, hne]
      · simp only [hmKeys, List.map_cons] at ih ⊢
        simp only [hmKeys] at h2
        simp [hmInsert, if_neg h1, ih, h2, hne]

theorem mem_hmKeys_hmInsert (k t : κ) (v : ν) (m : List (κ × ν)) :
    t ∈ hmKeys (hmInsert k v m) ↔ t = k ∨ t ∈ hmKeys m := by
  rw [hmKeys_hmInsert]
  by_cases h : k ∈ hmKeys m
  · simp only [if_pos h]
    constructor
    · exact fun ht => Or.inr ht
    · rintro (rfl | ht)
      · exact h
      · exact ht
  · simp [if_neg h, or_comm]

theorem nodup_hmKeys_hmInsert (k : κ) (v : ν) {m : List (κ × ν)}
    (h : (hmKeys m).Nodup) : (hmKeys (hmInsert k v m)).Nodup := by
  rw [hmKeys_hmInsert]
  by_cases hk : k ∈ hmKeys m
  · simpa [hk] using h
  · simpa [hk, List.nodup_append] using h

theorem hmLookup_eq_some_iff_mem {m : List (κ × ν)} (hn : (hmKeys m).Nodup)
    (k : κ) (v : ν) : hmLookup k m = some v ↔ (k, v) ∈ m := by
  induction m with
  | nil => simp [hmLookup]
  | cons p rest ih =>
    simp only [hmKeys, List.map_cons, List.nodup_cons] at hn
    rw [hmLookup_cons, List.mem_cons]
    by_cases h1 : p.1 = k
    · simp only [if_pos h1]
      constructor
      · intro h
        left
        cases p
        simp only at h1
        subst h1
        simpa using (Option.some.injEq _ _ ▸ h).symm
      · rintro (h | h)
        · cases p
          simp only [Prod.mk.injEq] at h
          simp [h.2]
        · exfalso
          apply hn.1
          have := List.mem_map_of_mem Prod.fst h
          simpa [h1] using this
    · simp only [if_neg h1]
      rw [ih (by simpa [hmKeys] using hn.2)]
      constructor
      · exact fun h => Or.inr h
      · rintro (h | h)
        · exact absurd (congrArg Prod.fst h).symm h1
        · exact h

theorem hmLookup_hmRemove (k t : κ) (m : List (κ × ν)) :
    hmLookup t (hmRemove k m) = if t = k then none else hmLookup t m := by
  induction m with
  | nil => by_cases h : t = k <;> simp [hmRemove, hmLookup, h]
  | cons p rest ih =>
    by_cases h1 : p.1 = k
    · have hfilter : hmRemove k (p :: rest) = hmRemove k rest := by
        simp [hmRemove, List.filter_cons, h1]
      rw [hfilter, ih, hmLookup_cons]
      by_cases h2 : t = k
      · simp [h2]
      · have hp : ¬ p.1 = t := fun hh => h2 (hh.symm.trans h1)
        simp [h2, hp]
    · have hfilter : hmRemove k (p :: rest) = p :: hmRemove k rest := by
        simp [hmRemove, List.filter_cons, h1]
      rw [hfilter, hmLookup_cons, hmLookup_cons, ih]
      by_cases hp : p.1 = t
      · have hne : ¬ t = k := fun hh => h1 (hp.trans hh)
        simp [hp, hne]
      · simp [hp]

theorem hmRemove_sublist (k : κ) (m : List (κ × ν)) :
    List.Sublist (hmRemove k m) m :=
  List.filter_sublist m

theorem hmRemove_eq_self {k : κ} {m : List (κ × ν)} (h : k ∉ hmKeys m) :
    hmRemove k m = m := by
  apply List.filter_eq_self.2
  intro p hp
  simp only [ne_eq, decide_eq_true_eq]
  intro hc
  exact h (hc ▸ List.mem_map_of_mem Prod.fst hp)

end AssocModel

section FoldModel

variable {κ ν ρ : Type} [DecidableEq κ]

/-- A `for r in l { map.insert(key r, val r) }` loop over records. -/
def hmFoldIns (keyf : ρ → κ) (valf : ρ → ν) (l : List ρ) (m0 : List (κ × ν)) :
    List (κ × ν) :=
  l.foldl (fun m r => hmInsert (keyf r) (valf r) m) m0

/-- A `for r in l { map.remove(key r) }` loop over records. -/
def hmFoldRem (keyf : ρ → κ) (l : List ρ) (m0 : List (κ × ν)) : List (κ × ν) :=
  l.foldl (fun m r => hmRemove (keyf r) m) m0

theorem hmFoldIns_append (keyf : ρ → κ) (valf : ρ → ν) (l1 l2 : List ρ)
    (m0 : List (κ × ν)) :
    hmFoldIns keyf valf (l1 ++ l2) m0 = hmFoldIns keyf valf l2 (hmFoldIns keyf valf l1 m0) := by
  simp [hmFoldIns, List.foldl_append]

theorem hmFoldRem_append (keyf : ρ → κ) (l1 l2 : List ρ) (m0 : List (κ × ν)) :
    hmFoldRem keyf (l1 ++ l2) m0 = hmFoldRem keyf l2 (hmFoldRem keyf l1 m0) := by
  simp [hmFoldRem, List.foldl_append]

/-- The binding left for key `t` after an insertion loop is the value of the
last record with key `t`, falling back to the initial map. -/
theorem hmLookup_hmFoldIns (keyf : ρ → κ) (valf : ρ → ν) (t : κ) (l : List ρ) :
    ∀ m0 : List (κ × ν),
      hmLookup t (hmFoldIns keyf valf l m0)
        = ((l.reverse.find? (fun r => keyf r = t)).map valf).or (hmLookup t m0) := by
  induction l with
  | nil => intro m0; simp [hmFoldIns]
  | cons a l ih =>
    intro m0
    have step : hmFoldIns keyf valf (a :: l) m0
        = hmFoldIns keyf valf l (hmInsert (keyf a) (valf a) m0) := rfl
    rw [step, ih]
    rw [List.reverse_cons, List.find?_append]
    cases hfind : l.reverse.find? (fun r => keyf r = t) with
    | some r => rfl
    | none =>
      simp only [Option.none_or]
      by_cases h : keyf a = t
      · subst h
        rw [hmLookup_hmInsert]
        simp [List.find?]
      · have hne : ¬ t = keyf a := fun hh => h hh.symm
        rw [hmLookup_hmInsert]
        simp [List.find?, h, hne]

theorem mem_hmKeys_hmFoldIns (keyf : ρ → κ) (valf : ρ → ν) (t : κ) (l : List ρ) :
    ∀ m0 : List (κ × ν),
      t ∈ hmKeys (hmFoldIns keyf valf l m0) ↔ t ∈ l.map keyf ∨ t ∈ hmKeys m0 := by
  induction l with
  | nil => intro m0; simp [hmFoldIns]
  | cons a l ih =>
    intro m0
    have step : hmFoldIns keyf valf (a :: l) m0
        = hmFoldIns keyf valf l (hmInsert (keyf a) (valf a) m0) := rfl
    rw [step, ih, List.map_cons]
    rw [mem_hmKeys_hmInsert]
    simp only [List.mem_cons]
    tauto

theorem nodup_hmKeys_hmFoldIns (keyf : ρ → κ) (valf : ρ → ν) (l : List ρ) :
    ∀ m0 : List (κ × ν), (hmKeys m0).Nodup → (hmKeys (hmFoldIns keyf valf l m0)).Nodup := by
  induction l with
  | nil => intro m0 h; simpa [hmFoldIns] using h
  | cons a l ih =>
    intro m0 h
    exact ih _ (nodup_hmKeys_hmInsert _ _ h)

theorem mem_hmFoldIns (keyf : ρ → κ) (valf : ρ → ν) (l : List ρ) :
    ∀ (m0 : List (κ × ν)) (q : κ × ν), q ∈ hmFoldIns keyf valf l m0 →
      (∃ r ∈ l, q = (keyf r, valf r)) ∨ q ∈ m0 := by
  induction l with
  | nil => intro m0 q h; exact Or.inr (by simpa [hmFoldIns] using h)
  | cons a l ih =>
    intro m0 q h
    have step : hmFoldIns keyf valf (a :: l) m0
        = hmFoldIns keyf valf l (hmInsert (keyf a) (valf a) m0) := rfl
    rw [step] at h
    rcases ih _ _ h with ⟨r, hr, hq⟩ | h'
    · exact Or.inl ⟨r, List.mem_cons_of_mem _ hr, hq⟩
    · rcases mem_hmInsert h' with hq | hq
      · exact Or.inl ⟨a, List.mem_cons_self _ _, hq⟩
      · exact Or.inr hq

theorem hmLookup_hmFoldRem (keyf : ρ → κ) (t : κ) (l : List ρ) :
    ∀ m0 : List (κ × ν),
      hmLookup t (hmFoldRem keyf l m0)
        = if t ∈ l.map keyf then none else hmLookup t m0 := by
  induction l with
  | nil => intro m0; simp [hmFoldRem]
  | cons a l ih =>
    intro m0
    have step : hmFoldRem keyf (a :: l) m0 = hmFoldRem keyf l (hmRemove (keyf a) m0) := rfl
    rw [step, ih, hmLookup_hmRemove]
    by_cases h1 : t ∈ l.map keyf
    · simp [h1]
    · by_cases h2 : t = keyf a
      · simp [h1, h2]
      · simp [h1, h2]

theorem hmFoldRem_sublist (keyf : ρ → κ) (l : List ρ) :
    ∀ m0 : List (κ × ν), List.Sublist (hmFoldRem keyf l m0) m0 := by
  induction l with
  | nil => intro m0; simp [hmFoldRem]
  | cons a l ih =>
    intro m0
    have step : hmFoldRem keyf (a :: l) m0 = hmFoldRem keyf l (hmRemove (keyf a) m0) := rfl
    rw [step]
    exact (ih _).trans (hmRemove_sublist _ _)

theorem nodup_hmKeys_hmFoldRem (keyf : ρ → κ) (l : List ρ) (m0 : List (κ × ν))
    (h : (hmKeys m0).Nodup) : (hmKeys (hmFoldRem keyf l m0)).Nodup :=
  ((hmFoldRem_sublist keyf l m0).map Prod.fst).nodup h

/-- Membership in the map left by an insertion loop followed by a removal
loop, for nodup initial keys. -/
theorem mem_hmFoldRem (keyf : ρ → κ) (l : List ρ) (m0 : List (κ × ν))
    (h : (hmKeys m0).Nodup) (k : κ) (v : ν) :
    (k, v) ∈ hmFoldRem keyf l m0 ↔ (k, v) ∈ m0 ∧ k ∉ l.map keyf := by
  rw [← hmLookup_eq_some_iff_mem (nodup_hmKeys_hmFoldRem keyf l m0 h),
    ← hmLookup_eq_some_iff_mem h, hmLookup_hmFoldRem]
  by_cases hk : k ∈ l.map keyf
  · simp [hk]
  · simp [hk]

end FoldModel

/-! ### Machine integer helpers -/

/-- Rust `h as i32` on a `u32` value (two's complement reinterpretation). -/
def i32ofU32 (h : Nat) : Int :=
  if h % 2 ^ 32 < 2 ^ 31 then ((h % 2 ^ 32 : Nat) : Int)
  else ((h % 2 ^ 32 : Nat) : Int) - 2 ^ 32

/-- Rust `n as i64` on a `u64` value (two's complement reinterpretation). -/
def i64ofU64 (n : Nat) : Int :=
  if n % 2 ^ 64 < 2 ^ 63 then ((n % 2 ^ 64 : Nat) : Int)
  else ((n % 2 ^ 64 : Nat) : Int) - 2 ^ 64

/-- Wrap an integer into the `i64` range (release-mode wrapping arithmetic). -/
def i64wrap (x : Int) : Int :=
  (x + 2 ^ 63) % 2 ^ 64 - 2 ^ 63

/-- Summation of `u64` values (`Iterator::sum`), wrapping at each addition. -/
def u64sum (l : List Nat) : Nat :=
  l.foldl (fun a v => (a + v) % 2 ^ 64) 0

/-! ### Data model of src/query.rs -/

/-- `FundingOutput`: an output of `txn_id` paying the queried scripthash. -/
structure FundingOutput where
  txn_id : Nat
  height : Nat
  output_index : Nat
  value : Nat
deriving DecidableEq, Repr

/-- `SpendingInput`: an input of `txn_id` consuming a known funding output. -/
structure SpendingInput where
  txn_id : Nat
  height : Nat
  funding_output : Nat × Nat
  value : Nat
deriving DecidableEq, Repr

/-- `Status`: confirmed and mempool funding/spending sets for a scripthash. -/
structure Status where
  confirmed : List FundingOutput × List SpendingInput
  mempool : List FundingOutput × List SpendingInput
deriving DecidableEq, Repr

/-- `calc_balance`: Σ funding value − Σ spending value, summed in `u64` and
subtracted as `i64`. -/
def calc_balance (p : List FundingOutput × List SpendingInput) : Int :=
  let funded : Nat := u64sum (p.1.map (fun output => output.value))
  let spent : Nat := u64sum (p.2.map (fun input => input.value))
  i64wrap (i64ofU64 funded - i64ofU64 spent)

namespace Status

/-- `Status::funding`: confirmed then mempool funding outputs. -/
def funding (s : Status) : List FundingOutput :=
  s.confirmed.1 ++ s.mempool.1

/-- `Status::spending`: confirmed then mempool spending inputs. -/
def spending (s : Status) : List SpendingInput :=
  s.confirmed.2 ++ s.mempool.2

/-- `Status::confirmed_balance`. -/
def confirmed_balance (s : Status) : Int :=
  calc_balance s.confirmed

/-- `Status::mempool_balance`. -/
def mempool_balance (s : Status) : Int :=
  calc_balance s.mempool

/-- The `txns_map` HashMap built inside `Status::history`: txid to `i32`
height, fundings inserted first, spendings second (later inserts win). -/
def historyTxnsMap (s : Status) : List (Nat × Int) :=
  let m := s.funding.foldl (fun m f => hmInsert f.txn_id (i32ofU32 f.height) m) []
  s.spending.foldl (fun m sp => hmInsert sp.txn_id (i32ofU32 sp.height) m) m

end Status

/-- Lexicographic (height, txid) comparison used by `txns.sort_unstable()`. -/
def histLe (a b : Int × Nat) : Prop :=
  a.1 < b.1 ∨ (a.1 = b.1 ∧ a.2 ≤ b.2)

/-- Strict lexicographic (height, txid) comparison. -/
def histLt (a b : Int × Nat) : Prop :=
  a.1 < b.1 ∨ (a.1 = b.1 ∧ a.2 < b.2)

instance : DecidableRel histLe := fun a b => by
  unfold histLe; infer_instance

instance : DecidableRel histLt := fun a b => by
  unfold histLt; infer_instance

instance : IsTotal (Int × Nat) histLe where
  total a b := by
    unfold histLe
    rcases lt_trichotomy a.1 b.1 with h | h | h
    · exact Or.inl (Or.inl h)
    · rcases Nat.le_total a.2 b.2 with h2 | h2
      · exact Or.inl (Or.inr ⟨h, h2⟩)
      · exact Or.inr (Or.inr ⟨h.symm, h2⟩)
    · exact Or.inr (Or.inl h)

instance : IsTrans (Int × Nat) histLe where
  trans a b c hab hbc := by
    unfold histLe at *
    rcases hab with h | ⟨h, h2⟩ <;> rcases hbc with h' | ⟨h', h2'⟩
    · exact Or.inl (h.trans h')
    · exact Or.inl (h'.symm ▸ h)
    · exact Or.inl (h ▸ h')
    · exact Or.inr ⟨h.trans h', h2.trans h2'⟩

/-- Comparison by height used by `sort_unstable_by_key(|out| out.height)`. -/
def heightLe (a b : FundingOutput) : Prop :=
  a.height ≤ b.height

instance : DecidableRel heightLe := fun a b => by
  unfold heightLe; infer_instance

instance : IsTotal FundingOutput heightLe where
  total a b := Nat.le_total a.height b.height

instance : IsTrans FundingOutput heightLe where
  trans _ _ _ hab hbc := Nat.le_trans hab hbc

namespace Status

/-- `Status::history`: the (height, txid) pairs of `txns_map`, sorted. -/
def history (s : Status) : List (Int × Nat) :=
  List.insertionSort histLe ((s.historyTxnsMap).map (fun item => (item.2, item.1)))

/-- The `outputs_map` HashMap built inside `Status::unspent`, keyed by
outpoint `(txn_id, output_index)`; spendings remove their funded outpoint. -/
def unspentOutputsMap (s : Status) : List ((Nat × Nat) × FundingOutput) :=
  let m := s.funding.foldl
    (fun m f => hmInsert (f.txn_id, f.output_index) f m) []
  s.spending.foldl (fun m sp => hmRemove sp.funding_output m) m

/-- `Status::unspent`: unspent funding outputs sorted by height. -/
def unspent (s : Status) : List FundingOutput :=
  List.insertionSort heightLe ((s.unspentOutputsMap).map (fun item => item.2))

end Status

/-! ### Status hash (src/query.rs, `Status::hash`) -/

/-- Lowercase hex digit character for a value below 16. -/
def hexDigit (n : Nat) : Char :=
  if n < 10 then Char.ofNat (48 + n) else Char.ofNat (87 + n)

/-- `Sha256dHash::be_hex_string`: the 64-character big-endian hex rendering
of a 256-bit transaction id. -/
def beHexString (t : Nat) : String :=
  String.mk ((List.range 64).map (fun i => hexDigit (t / 16 ^ (63 - i) % 16)))

/-- `FullHash`: a 32-byte digest. -/
def FullHash : Type :=
  { l : List Nat // l.length = 32 }

/-- The `"{txid}:{height}:"` chunk fed to SHA256 for one history entry. -/
def historyChunk (item : Int × Nat) : String :=
  beHexString item.2 ++ ":" ++ toString item.1 ++ ":"

/-- `Status::hash`, parameterized by the external SHA256 implementation:
`None` when the history is empty, else the digest of the concatenated
`"{txid}:{height}:"` chunks in history order. -/
def Status.hash (sha256 : String → FullHash) (s : Status) : Option FullHash :=
  let txns := s.history
  if txns.isEmpty then none
  else some (sha256 (String.join (txns.map historyChunk)))

/-! ### find_spending_input (src/query.rs) -/

/-- A decoded transaction, reduced to what `find_spending_input` inspects:
its id and the `previous_output` outpoints of its inputs. -/
structure RTransaction where
  txid : Nat
  input : List (Nat × Nat)
deriving DecidableEq, Repr

/-- `TxnHeight`: a transaction together with its confirmation height. -/
structure TxnHeight where
  txn : RTransaction
  height : Nat
deriving DecidableEq, Repr

/-- The `spending_inputs` vector accumulated by `find_spending_input`: one
entry per input of a candidate spender whose `previous_output` equals the
funding outpoint (`vout` is compared after a `usize`-to-`u32` cast). -/
def spendingInputsOf (spending_txns : List TxnHeight) (funding : FundingOutput) :
    List SpendingInput :=
  spending_txns.foldl
    (fun acc t =>
      acc ++ (t.txn.input.filter
          (fun i => i.1 = funding.txn_id ∧ i.2 = funding.output_index % 2 ^ 32)).map
        (fun _ => ⟨t.txn.txid, t.height, (funding.txn_id, funding.output_index),
          funding.value⟩))
    []

/-- `Query::find_spending_input`, given the candidate spenders materialized
from the TxInRow scan; the `assert!(spending_inputs.len() <= 1)` panic is
modelled as an `Except.error`. -/
def find_spending_input (spending_txns : List TxnHeight) (funding : FundingOutput) :
    Except String (Option SpendingInput) :=
  let spending_inputs := spendingInputsOf spending_txns funding
  if spending_inputs.length ≤ 1 then
    .ok (if spending_inputs.length = 1 then spending_inputs.head? else none)
  else
    .error "assertion failed: spending_inputs.len() <= 1"

/-- The number of (candidate transaction, input) pairs whose
`previous_output` is the funding outpoint. -/
def spendMatchCount (spending_txns : List TxnHeight) (funding : FundingOutput) : Nat :=
  (spending_txns.map
    (fun t => (t.txn.input.filter
      (fun i => i.1 = funding.txn_id ∧ i.2 = funding.output_index % 2 ^ 32)).length)).sum

/-! ### Merkle proof (src/query.rs, `get_merkle_proof` and `merklize`) -/

/-- Duplicate the last element of an odd-length level (`txids.push(last)`). -/
def merklePad (l : List Nat) : List Nat :=
  if l.length % 2 ≠ 0 then l ++ l.getLast?.toList else l

/-- One reduction step: `txids.chunks(2).map(|pair| merklize(pair[0], pair[1]))`,
parameterized by the external SHA256d pair hash `mk`. -/
def nextLevel (mk : Nat → Nat → Nat) : List Nat → List Nat
  | a :: b :: rest => mk a b :: nextLevel mk rest
  | _ => []

theorem length_nextLevel (mk : Nat → Nat → Nat) :
    ∀ l : List Nat, (nextLevel mk l).length = l.length / 2
  | [] => by simp [nextLevel]
  | [_] => by simp [nextLevel]
  | _ :: _ :: rest => by
    simp only [nextLevel, List.length_cons, length_nextLevel mk rest]
    omega

theorem length_merklePad (l : List Nat) :
    (merklePad l).length = l.length + l.length % 2 := by
  unfold merklePad
  by_cases h : l.length % 2 ≠ 0
  · have hne : l ≠ [] := by
      intro he
      subst he
      simp at h
    simp [h, List.getLast?_eq_getLast _ hne]
    omega
  · simp only [h, if_neg, ite_false]
    omega

/-- The `while txids.len() > 1` loop of `get_merkle_proof`: collect the
sibling at each level, halving the index. -/
def merkleLoop (mk : Nat → Nat → Nat) (txids : List Nat) (index : Nat) : List Nat :=
  if txids.length ≤ 1 then []
  else
    let padded := merklePad txids
    let sibIdx := if index % 2 = 0 then index + 1 else index - 1
    padded.getD sibIdx 0 :: merkleLoop mk (nextLevel mk padded) (sibIdx / 2)
termination_by txids.length
decreasing_by
  simp only [length_nextLevel, length_merklePad]
  omega

/-- `Query::get_merkle_proof`, given the block's txid list: locate the target
position, then run the sibling-collection loop; `None` models the
`chain_err` failure when the txid is not in the block. -/
def get_merkle_proof (mk : Nat → Nat → Nat) (txids : List Nat) (tx_hash : Nat) :
    Option (List Nat × Nat) :=
  match txids.findIdx? (fun txid => txid = tx_hash) with
  | none => none
  | some pos => some (merkleLoop mk txids pos, pos)

/-- Modelled from the spec: the sibling list described in §4.7 — duplicate
the last element of an odd level, record the element at index `p XOR 1`,
set `p ← p / 2`, reduce the level with `merklize` over consecutive pairs. -/
def merkleSiblingsSpec (mk : Nat → Nat → Nat) (txids : List Nat) (p : Nat) :
    List Nat :=
  if txids.length ≤ 1 then []
  else
    let padded := merklePad txids
    padded.getD (p ^^^ 1) 0 :: merkleSiblingsSpec mk (nextLevel mk padded) (p / 2)
termination_by txids.length
decreasing_by
  simp only [length_nextLevel, length_merklePad]
  omega

/-! ### Fee estimation (src/query.rs, `estimate_fee`) -/

/-- The `for (fee_rate, vsize) in fee_histogram` loop of `estimate_fee`:
remember the rate, accumulate the `u32` vsize, break once the target is
reached. Fee rates (`f32` in the source) are idealized as rationals. -/
def feeLoop (target : Nat) : List (ℚ × Nat) → Nat → ℚ → ℚ
  | [], _, last_fee_rate => last_fee_rate
  | (fee_rate, vsize) :: rest, total_vsize, _ =>
    let total := (total_vsize + vsize) % 2 ^ 32
    if target ≤ total then fee_rate else feeLoop target rest total fee_rate

/-- `Query::estimate_fee`, given the fee histogram: accumulate vsize until
`blocks * 1_000_000` vbytes (a `usize`-to-`u32` cast in the source), then
scale the last seen rate by `1e-5`. -/
def estimate_fee (fee_histogram : List (ℚ × Nat)) (blocks : Nat) : ℚ :=
  let blocks_in_vbytes := (blocks * 1000000) % 2 ^ 32
  feeLoop blocks_in_vbytes fee_histogram 0 0 * (1 / 100000)

/-! ### REST layer (src/rest.rs) -/

namespace Rest

/-- HTTP method: the router only distinguishes GET from everything else. -/
inductive Method
  | GET
  | other
deriving DecidableEq, Repr

/-- An `elements::Block`, reduced to the fields the REST handlers read:
header height, previous block hash and (opaque) transactions. -/
structure RBlock where
  height : Nat
  prev_blockhash : Nat
  txdata : List Nat
deriving DecidableEq, Repr

/-- External collaborators of the handlers (`Query`, hex parsing): each is
an abstract function, so every theorem holds for all of them. -/
structure Env where
  parseHash : String → Option Nat
  getHeader : Nat → Option Nat
  getBestHeader : Except String Nat
  getBlock : Nat → Except String RBlock
  txstoreGet : Nat → Except String Nat
  attachTx : Nat → Nat

/-- An HTTP request: method, path segments (`uri.path().split('/').skip(1)`)
and the parsed query string. -/
structure Request where
  method : Method
  path : List String
  query_params : String → Option String

/-- Response payloads, kept structured instead of serialized to JSON. -/
inductive RespBody
  | text (s : String)
  | jsonBlocks (l : List RBlock)
  | jsonBlock (b : RBlock)
  | jsonBlockTxs (b : RBlock) (txs : List Nat)
  | jsonTx (t : Nat)
deriving DecidableEq, Repr

/-- An HTTP response: status code and payload. -/
structure Response where
  status : Nat
  body : RespBody
deriving DecidableEq, Repr

/-- `http_message`: a plain-text response with the given status. -/
def http_message (status : Nat) (message : String) : Response :=
  ⟨status, .text message⟩

/-- `bad_request()`: 400 with body "400 Bad Request". -/
def bad_request : Response :=
  http_message 400 "400 Bad Request"

/-- `redirect`: 307 with a Location-style body. -/
def redirect (status : Nat) (path : String) : Response :=
  ⟨status, .text ("See " ++ path ++ "\n")⟩

/-- Rust `str::parse::<uN>`: optional leading `+`, at least one digit, all
digits, value below `bound`. -/
def parseNum (bound : Nat) (s : String) : Option Nat :=
  let cs := s.data
  let cs := if cs.head? = some (Char.ofNat 43) then cs.drop 1 else cs
  if cs ≠ [] ∧ cs.all (fun c => c.isDigit) then
    let n := cs.foldl (fun a c => a * 10 + (c.toNat - 48)) 0
    if n < bound then some n else none
  else none

/-- The `for _ in 0..limit` loop of `blocks()`: walk `prev_blockhash` links,
stopping at the genesis block (height 0). -/
def blocksLoop (env : Env) : Nat → Nat → List RBlock → Except String (List RBlock)
  | 0, _, values => .ok values
  | n + 1, current_hash, values =>
    match env.getBlock current_hash with
    | .error e => .error e
    | .ok block =>
      match block.height with
      | 0 => .ok values
      | _ + 1 => blocksLoop env n block.prev_blockhash (values ++ [block])

/-- `blocks()`: a JSON list of up to `limit` block summaries. -/
def blocksFn (env : Env) (hash0 : Nat) (limit : Nat) : Except String Response :=
  match blocksLoop env limit hash0 [] with
  | .error e => .error e
  | .ok values => .ok ⟨200, .jsonBlocks values⟩

/-- `handle_request`: the full route match of src/rest.rs. -/
def handle_request (env : Env) (req : Request) : Except String Response :=
  match req.method, req.path[0]?, req.path[1]?, req.path[2]? with
  | .GET, some "blocks", none, none =>
    let limit := min
      (match req.query_params "limit" with
       | none => 10
       | some el => (parseNum (2 ^ 32) el).getD 10) 30
    match req.query_params "start_height" with
    | none =>
      match env.getBestHeader with
      | .error e => .error e
      | .ok hash0 => blocksFn env hash0 limit
    | some hs =>
      match parseNum (2 ^ 64) hs with
      | none => .error "invalid integer"
      | some height =>
        match env.getHeader height with
        | none => .ok (http_message 404 ("cannot find header at height " ++ toString height))
        | some hash0 => blocksFn env hash0 limit
  | .GET, some "block-height", some hs, none =>
    match parseNum (2 ^ 64) hs with
    | none => .error "invalid integer"
    | some height =>
      match env.getHeader height with
      | none => .ok (http_message 404 ("cannot find header at height " ++ toString height))
      | some hash0 => .ok (redirect 307 ("/block/" ++ beHexString hash0))
  | .GET, some "block", some hs, none =>
    match env.parseHash hs with
    | none => .error "invalid hex"
    | some hash0 =>
      match env.getBlock hash0 with
      | .error e => .error e
      | .ok block => .ok ⟨200, .jsonBlock block⟩
  | .GET, some "block", some hs, some "with-txs" =>
    match env.parseHash hs with
    | none => .error "invalid hex"
    | some hash0 =>
      match env.getBlock hash0 with
      | .error e => .error e
      | .ok block =>
        let start := min
          (max (match req.query_params "start_index" with
                | none => 0
                | some el => (parseNum (2 ^ 32) el).getD 0) 0)
          block.txdata.length
        let limit := min
          (match req.query_params "limit" with
           | none => 10
           | some el => (parseNum (2 ^ 32) el).getD 10) 50
        let endIdx := min (start + limit) block.txdata.length
        let page := (block.txdata.drop start).take (endIdx - start)
        .ok ⟨200, .jsonBlockTxs { block with txdata := page } (page.map env.attachTx)⟩
  | .GET, some "tx", some hs, none =>
    match env.parseHash hs with
    | none => .error "invalid hex"
    | some hash0 =>
      match env.txstoreGet hash0 with
      | .error e => .error e
      | .ok t => .ok ⟨200, .jsonTx (env.attachTx t)⟩
  | _, _, _, _ => .error "endpoint does not exist"

/-- Whether the request matches one of the five routes of `handle_request`. -/
def isRouted (req : Request) : Bool :=
  match req.method, req.path[0]?, req.path[1]?, req.path[2]? with
  | .GET, some "blocks", none, none => true
  | .GET, some "block-height", some _, none => true
  | .GET, some "block", some _, none => true
  | .GET, some "block", some _, some "with-txs" => true
  | .GET, some "tx", some _, none => true
  | _, _, _, _ => false

/-- The `service_fn_ok` wrapper of `run_server`: errors from
`handle_request` become `bad_request()`. -/
def run_server_response (env : Env) (req : Request) : Response :=
  match handle_request env req with
  | .ok response => response
  | .error _ => bad_request

end Rest

/-- A concrete REST environment: hash string "aa" parses to 1, which is a
3-transaction block; everything else is missing. -/
def envC : Rest.Env where
  parseHash := fun s => if s = "aa" then some 1 else none
  getHeader := fun _ => none
  getBestHeader := .error "no best header"
  getBlock := fun h => if h = 1 then .ok ⟨5, 0, [10, 20, 30]⟩ else .error "missing block"
  txstoreGet := fun _ => .error "missing tx"
  attachTx := fun t => t

/-- A concrete request for `GET /block/aa/txs?start_index=7`. -/
def reqTxs : Rest.Request :=
  ⟨.GET, ["block", "aa", "txs"], fun k => if k = "start_index" then some "7" else none⟩

/-- A concrete request for `GET /block/aa/with-txs?start_index=7`. -/
def reqWith : Rest.Request :=
  ⟨.GET, ["block", "aa", "with-txs"], fun k => if k = "start_index" then some "7" else none⟩

/-! ### Derived record sequences used by the theorems -/

/-- The `(txid, height)` pairs of all four record lists, in the order
`Status::history` inserts them into `txns_map`: confirmed funding, mempool
funding, confirmed spending, mempool spending. -/
def Status.historyRecords (s : Status) : List (Nat × Nat) :=
  s.funding.map (fun f => (f.txn_id, f.height))
    ++ s.spending.map (fun sp => (sp.txn_id, sp.height))

/-- The outpoint key `(txn_id, output_index)` of a funding output. -/
def FundingOutput.outpoint (f : FundingOutput) : Nat × Nat :=
  (f.txn_id, f.output_index)

/-! ### History lemmas -/

theorem historyTxnsMap_eq (s : Status) :
    s.historyTxnsMap
      = hmFoldIns Prod.fst (fun r : Nat × Nat => i32ofU32 r.2) s.historyRecords [] := by
  simp [Status.historyTxnsMap, Status.historyRecords, hmFoldIns,
    List.foldl_append, List.foldl_map]

theorem nodup_hmKeys_historyTxnsMap (s : Status) :
    (hmKeys s.historyTxnsMap).Nodup := by
  rw [historyTxnsMap_eq]
  exact nodup_hmKeys_hmFoldIns _ _ _ _ (by simp [hmKeys])

theorem mem_historyTxnsMap (s : Status) (t : Nat) (h : Int) :
    (t, h) ∈ s.historyTxnsMap ↔
      Option.map (fun r : Nat × Nat => i32ofU32 r.2)
        (s.historyRecords.reverse.find? (fun r => r.1 = t)) = some h := by
  rw [← hmLookup_eq_some_iff_mem (nodup_hmKeys_historyTxnsMap s), historyTxnsMap_eq,
    hmLookup_hmFoldIns]
  simp [hmLookup]

theorem mem_hmKeys_historyTxnsMap (s : Status) (t : Nat) :
    t ∈ hmKeys s.historyTxnsMap ↔ t ∈ s.historyRecords.map Prod.fst := by
  rw [historyTxnsMap_eq, mem_hmKeys_hmFoldIns]
  simp [hmKeys]

theorem history_perm (s : Status) :
    (s.history).Perm ((s.historyTxnsMap).map (fun p => (p.2, p.1))) :=
  List.perm_insertionSort histLe _

theorem mem_history (s : Status) (h : Int) (t : Nat) :
    (h, t) ∈ s.history ↔ (t, h) ∈ s.historyTxnsMap := by
  rw [(history_perm s).mem_iff, List.mem_map]
  constructor
  · rintro ⟨p, hp, hpe⟩
    have h1 : p.2 = h := congrArg Prod.fst hpe
    have h2 : p.1 = t := congrArg Prod.snd hpe
    have : p = (t, h) := by
      cases p
      simp only at h1 h2
      simp [h1, h2]
    exact this ▸ hp
  · intro hm
    exact ⟨(t, h), hm, rfl⟩

theorem history_sorted (s : Status) : (s.history).Pairwise histLe :=
  List.sorted_insertionSort histLe _

theorem nodup_history_txids (s : Status) :
    ((s.history).map Prod.snd).Nodup := by
  have hperm : ((s.history).map Prod.snd).Perm
      (((s.historyTxnsMap).map (fun p => (p.2, p.1))).map Prod.snd) :=
    (history_perm s).map Prod.snd
  rw [hperm.nodup_iff]
  have : ((s.historyTxnsMap).map (fun p : Nat × Int => (p.2, p.1))).map Prod.snd
      = hmKeys s.historyTxnsMap := by
    simp [hmKeys, List.map_map, Function.comp]
  rw [this]
  exact nodup_hmKeys_historyTxnsMap s

theorem histLe_ne_histLt {a b : Int × Nat} (h1 : histLe a b) (h2 : a ≠ b) :
    histLt a b := by
  rcases h1 with h | ⟨he, hle⟩
  · exact Or.inl h
  · refine Or.inr ⟨he, lt_of_le_of_ne hle ?_⟩
    intro hc
    exact h2 (Prod.ext he hc)

theorem history_pairwise_lt (s : Status) : (s.history).Pairwise histLt := by
  have hnd : (s.history).Nodup := List.Nodup.of_map Prod.snd (nodup_history_txids s)
  exact ((history_sorted s).and hnd).imp (fun hab => histLe_ne_histLt hab.1 hab.2)

/-! ### Unspent (UTXO) lemmas -/

theorem unspentOutputsMap_eq (s : Status) :
    s.unspentOutputsMap
      = hmFoldRem SpendingInput.funding_output s.spending
          (hmFoldIns FundingOutput.outpoint id s.funding []) :=
  rfl

theorem nodup_hmKeys_unspentInsFold (s : Status) :
    (hmKeys (hmFoldIns FundingOutput.outpoint id s.funding
      ([] : List ((Nat × Nat) × FundingOutput)))).Nodup :=
  nodup_hmKeys_hmFoldIns _ _ _ _ (by simp [hmKeys])

theorem nodup_hmKeys_unspentOutputsMap (s : Status) :
    (hmKeys s.unspentOutputsMap).Nodup := by
  rw [unspentOutputsMap_eq]
  exact nodup_hmKeys_hmFoldRem _ _ _ (nodup_hmKeys_unspentInsFold s)

theorem mem_unspentOutputsMap (s : Status) (k : Nat × Nat) (f : FundingOutput) :
    (k, f) ∈ s.unspentOutputsMap ↔
      (k, f) ∈ hmFoldIns FundingOutput.outpoint id s.funding []
        ∧ k ∉ s.spending.map SpendingInput.funding_output := by
  rw [unspentOutputsMap_eq]
  exact mem_hmFoldRem _ _ _ (nodup_hmKeys_unspentInsFold s) k f

theorem mem_unspentInsFold_elim {s : Status} {k : Nat × Nat} {f : FundingOutput}
    (h : (k, f) ∈ hmFoldIns FundingOutput.outpoint id s.funding []) :
    f ∈ s.funding ∧ k = f.outpoint := by
  rcases mem_hmFoldIns _ _ _ _ _ h with ⟨r, hr, hq⟩ | h'
  · have h1 : k = r.outpoint := congrArg Prod.fst hq
    have h2 : f = r := congrArg Prod.snd hq
    subst h2
    exact ⟨hr, h1⟩
  · simp at h'

theorem unspent_perm (s : Status) :
    (s.unspent).Perm ((s.unspentOutputsMap).map (fun item => item.2)) :=
  List.perm_insertionSort heightLe _

theorem mem_unspent (s : Status) (f : FundingOutput) :
    f ∈ s.unspent ↔ ∃ k, (k, f) ∈ s.unspentOutputsMap := by
  rw [(unspent_perm s).mem_iff, List.mem_map]
  constructor
  · rintro ⟨q, hq, rfl⟩
    exact ⟨q.1, hq⟩
  · rintro ⟨k, hk⟩
    exact ⟨(k, f), hk, rfl⟩

theorem unspent_sorted (s : Status) : (s.unspent).Pairwise heightLe :=
  List.sorted_insertionSort heightLe _

/-! ### Claim theorems -/

/-- C1: `Status::history` returns the distinct txids drawn from the union
of the four funding/spending record lists, each paired with a height of a
record bearing that txid, sorted strictly ascending lexicographically by
`(height, txid)` with no duplicate txids; since histories are sorted on the
`i32` height first, the mempool synthetic heights (0 and −1) sort before
confirmed heights and −1 sorts before 0. -/
theorem history_spec (s : Status) :
    (s.history).Pairwise histLt
    ∧ ((s.history).map Prod.fst).Pairwise (fun a b : Int => a ≤ b)
    ∧ ((s.history).map Prod.snd).Nodup
    ∧ (∀ t : Nat, (∃ h, (h, t) ∈ s.history) ↔ t ∈ (s.historyRecords).map Prod.fst)
    ∧ (∀ h t, (h, t) ∈ s.history →
        ∃ r ∈ s.historyRecords, r.1 = t ∧ i32ofU32 r.2 = h) := by
  refine ⟨history_pairwise_lt s, ?_, nodup_history_txids s, ?_, ?_⟩
  · rw [List.pairwise_map]
    refine (history_sorted s).imp ?_
    rintro a b (h | ⟨h, _⟩)
    · exact le_of_lt h
    · exact le_of_eq h
  · intro t
    constructor
    · rintro ⟨h, hh⟩
      rw [mem_history] at hh
      rw [← mem_hmKeys_historyTxnsMap]
      exact List.mem_map_of_mem Prod.fst hh
    · intro ht
      rw [← mem_hmKeys_historyTxnsMap] at ht
      rcases List.mem_map.1 ht with ⟨p, hp, hfst⟩
      refine ⟨p.2, ?_⟩
      rw [mem_history]
      have : (t, p.2) = p := Prod.ext hfst.symm rfl
      exact this ▸ hp
  · intro h t hmem
    rw [mem_history, mem_historyTxnsMap] at hmem
    cases hfind : (s.historyRecords).reverse.find? (fun r => r.1 = t) with
    | none => rw [hfind] at hmem; simp at hmem
    | some r =>
      rw [hfind] at hmem
      refine ⟨r, List.mem_reverse.1 (List.mem_of_find?_eq_some hfind), ?_, ?_⟩
      · simpa using List.find?_some hfind
      · simpa using hmem

/-- C1 witness: in a status with confirmed funding on txid 5, confirmed
spending on txid 7 and mempool funding on txid 9, txid 9 occurs in the
history. -/
theorem history_spec_witness :
    ∃ h, (h, 9) ∈ Status.history
      ⟨([⟨5, 10, 0, 500⟩], [⟨7, 11, (5, 0), 500⟩]), ([⟨9, 0, 1, 700⟩], [])⟩ :=
  ((history_spec _).2.2.2.1 9).mpr (by decide)

/-- C10: when a txid occurs in several record lists, `Status::history`
pairs it with the height of the record inserted last into `txns_map`; the
insertion order is confirmed funding, mempool funding, confirmed spending,
mempool spending (the order of `historyRecords`), so later kinds override
earlier ones. -/
theorem history_last_insert_wins (s : Status) (h : Int) (t : Nat) :
    (h, t) ∈ s.history ↔
      Option.map (fun r : Nat × Nat => i32ofU32 r.2)
        ((s.historyRecords).reverse.find? (fun r => r.1 = t)) = some h := by
  rw [mem_history, mem_historyTxnsMap]

/-- C10 witness: txid 5 funds at height 10 and spends at height 11; the
spending record is inserted later, so history shows height 11 (and not
height 10). -/
theorem history_last_insert_wins_witness :
    ((11 : Int), 5) ∈ Status.history
        ⟨([⟨5, 10, 0, 500⟩], [⟨5, 11, (5, 0), 500⟩]), ([], [])⟩
      ∧ ¬ ((10 : Int), 5) ∈ Status.history
        ⟨([⟨5, 10, 0, 500⟩], [⟨5, 11, (5, 0), 500⟩]), ([], [])⟩ :=
  ⟨(history_last_insert_wins _ 11 5).mpr (by decide),
    fun hc => absurd ((history_last_insert_wins _ 10 5).mp hc) (by decide)⟩

/-- C2: `Status::hash` is `None` exactly when the history is empty;
otherwise it is the SHA256 digest (for the given digest function) of the
concatenation, in history order, of `hex(txid) ‖ ":" ‖ decimal(height) ‖ ":"`
per entry — hence it depends only on the ordered (txid, height) pairs. -/
theorem hash_spec (sha256 : String → FullHash) (s : Status) :
    (Status.hash sha256 s = none ↔ s.history = [])
    ∧ (s.history ≠ [] →
        Status.hash sha256 s
          = some (sha256 (String.join ((s.history).map
              (fun item => beHexString item.2 ++ ":" ++ toString item.1 ++ ":")))))
    ∧ (∀ s' : Status, s.history = s'.history →
        Status.hash sha256 s = Status.hash sha256 s') := by
  refine ⟨?_, ?_, ?_⟩
  · by_cases h : (s.history).isEmpty
    · simp [Status.hash, h, List.isEmpty_iff.mp h]
    · have : ¬ s.history = [] := fun hc => h (by simp [hc])
      simp [Status.hash, h, this]
  · intro hne
    have h : ¬ (s.history).isEmpty = true := fun hc => hne (List.isEmpty_iff.mp hc)
    simp only [Status.hash, h, ite_false, if_neg]
    rfl
  · intro s' he
    simp [Status.hash, he]

/-- C2 witness: for an empty status the history is empty and the hash is
null, for any digest function. -/
theorem hash_spec_witness :
    Status.hash (fun _ => ⟨List.replicate 32 0, List.length_replicate 32 0⟩)
        ⟨([], []), ([], [])⟩ = none :=
  (hash_spec _ _).1.mpr rfl

/-- C3: `Status::unspent` returns exactly the funding records, keyed by
outpoint `(txn_id, output_index)`, whose key no spending record's
`funding_output` references, sorted ascending by height; a spending record
whose outpoint matches no funding key only warns: the result is unchanged
and no error is raised. -/
theorem unspent_spec (s : Status) :
    (s.unspent).Pairwise heightLe
    ∧ (∀ f ∈ s.unspent, f ∈ s.funding
        ∧ f.outpoint ∉ s.spending.map SpendingInput.funding_output)
    ∧ (∀ f ∈ s.funding, f.outpoint ∉ s.spending.map SpendingInput.funding_output →
        ∃ g ∈ s.unspent, g.outpoint = f.outpoint)
    ∧ ((s.unspent).map FundingOutput.outpoint).Nodup
    ∧ (∀ sp : SpendingInput,
        sp.funding_output ∉ s.funding.map FundingOutput.outpoint →
        Status.unspent ⟨s.confirmed, (s.mempool.1, s.mempool.2 ++ [sp])⟩ = s.unspent) := by
  refine ⟨unspent_sorted s, ?_, ?_, ?_, ?_⟩
  · intro f hf
    rcases (mem_unspent s f).1 hf with ⟨k, hk⟩
    rcases (mem_unspentOutputsMap s k f).1 hk with ⟨hins, hnot⟩
    rcases mem_unspentInsFold_elim hins with ⟨hfund, hkey⟩
    exact ⟨hfund, hkey ▸ hnot⟩
  · intro f hf hnot
    have hk : f.outpoint ∈ hmKeys (hmFoldIns FundingOutput.outpoint id s.funding []) := by
      rw [mem_hmKeys_hmFoldIns]
      exact Or.inl (List.mem_map_of_mem FundingOutput.outpoint hf)
    have hk2 : ∃ x, (f.outpoint, x) ∈ hmFoldIns FundingOutput.outpoint id s.funding [] := by
      simpa [hmKeys] using hk
    rcases hk2 with ⟨f2, hq'⟩
    rcases mem_unspentInsFold_elim hq' with ⟨hfund2, hkey2⟩
    have hmem2 : (f.outpoint, f2) ∈ s.unspentOutputsMap :=
      (mem_unspentOutputsMap s f.outpoint f2).2 ⟨hq', hnot⟩
    exact ⟨f2, (mem_unspent s f2).2 ⟨f.outpoint, hmem2⟩, hkey2.symm⟩
  · have hperm := (unspent_perm s).map FundingOutput.outpoint
    rw [hperm.nodup_iff]
    have hcong : ((s.unspentOutputsMap).map (fun item => item.2)).map FundingOutput.outpoint
        = hmKeys s.unspentOutputsMap := by
      rw [List.map_map]
      apply List.map_congr_left
      intro q hq
      obtain ⟨k, f2⟩ := q
      have hq1 : (k, f2) ∈ hmFoldIns FundingOutput.outpoint id s.funding [] := by
        rw [unspentOutputsMap_eq] at hq
        exact (hmFoldRem_sublist SpendingInput.funding_output s.spending _).subset hq
      rcases mem_unspentInsFold_elim hq1 with ⟨_, hkey⟩
      simpa [Function.comp] using hkey.symm
    rw [hcong]
    exact nodup_hmKeys_unspentOutputsMap s
  · intro sp hnot
    have spending_eq :
        (Status.spending ⟨s.confirmed, (s.mempool.1, s.mempool.2 ++ [sp])⟩)
          = s.spending ++ [sp] := by
      simp [Status.spending, List.append_assoc]
    have hmap :
        (Status.unspentOutputsMap ⟨s.confirmed, (s.mempool.1, s.mempool.2 ++ [sp])⟩)
          = s.unspentOutputsMap := by
      rw [unspentOutputsMap_eq, unspentOutputsMap_eq]
      have funding_eq :
          (Status.funding ⟨s.confirmed, (s.mempool.1, s.mempool.2 ++ [sp])⟩)
            = s.funding := rfl
      rw [funding_eq, spending_eq, hmFoldRem_append]
      have hsingle : ∀ m : List ((Nat × Nat) × FundingOutput),
          hmFoldRem SpendingInput.funding_output [sp] m
            = hmRemove sp.funding_output m := by
        intro m
        simp [hmFoldRem]
      rw [hsingle]
      apply hmRemove_eq_self
      intro hc
      have hc1 : sp.funding_output ∈ hmKeys (hmFoldIns FundingOutput.outpoint id s.funding []) :=
        ((hmFoldRem_sublist SpendingInput.funding_output s.spending _).map Prod.fst).subset hc
      rcases (mem_hmKeys_hmFoldIns _ _ _ _ _).1 hc1 with hmem | hmem
      · exact hnot hmem
      · simp [hmKeys] at hmem
    unfold Status.unspent
    rw [hmap]

/-- C3 witness: a status with a single confirmed funding output on
outpoint (5, 0) and no spending yields an unspent entry keyed (5, 0). -/
theorem unspent_spec_witness :
    ∃ g ∈ Status.unspent ⟨([⟨5, 10, 0, 500⟩], []), ([], [])⟩,
      g.outpoint = ((5 : Nat), (0 : Nat)) :=
  (unspent_spec _).2.2.1 ⟨5, 10, 0, 500⟩ (by decide) (by decide)

/-! ### Balance lemmas -/

theorem u64sum_foldl (l : List Nat) :
    ∀ a : Nat, l.foldl (fun x v => (x + v) % 2 ^ 64) (a % 2 ^ 64) = (a + l.sum) % 2 ^ 64 := by
  induction l with
  | nil => intro a; simp
  | cons v l ih =>
    intro a
    have h1 : (a % 2 ^ 64 + v) % 2 ^ 64 = (a + v) % 2 ^ 64 := Nat.mod_add_mod a (2 ^ 64) v
    calc (v :: l).foldl (fun x v => (x + v) % 2 ^ 64) (a % 2 ^ 64)
        = l.foldl (fun x v => (x + v) % 2 ^ 64) ((a + v) % 2 ^ 64) := by
          simp [List.foldl_cons, h1]
      _ = (a + v + l.sum) % 2 ^ 64 := ih (a + v)
      _ = (a + (v :: l).sum) % 2 ^ 64 := by
          simp [List.sum_cons, Nat.add_assoc]

theorem u64sum_eq (l : List Nat) : u64sum l = l.sum % 2 ^ 64 := by
  have h0 : (0 : Nat) = 0 % 2 ^ 64 := by simp
  calc u64sum l = l.foldl (fun x v => (x + v) % 2 ^ 64) (0 % 2 ^ 64) := by
        rw [u64sum, ← h0]
    _ = (0 + l.sum) % 2 ^ 64 := u64sum_foldl l 0
    _ = l.sum % 2 ^ 64 := by rw [Nat.zero_add]

theorem i64wrap_eq_self {x : Int} (h1 : -(2 ^ 63) ≤ x) (h2 : x < 2 ^ 63) :
    i64wrap x = x := by
  unfold i64wrap
  rw [Int.emod_eq_of_lt (by omega) (by omega)]
  omega

/-- C4: `confirmed_balance` (resp. `mempool_balance`) is the sum of the
confirmed (resp. mempool) funding values minus the sum of the spending
values, each sum taken modulo 2^64 (`u64`), reinterpreted as `i64` and
subtracted with wrapping `i64` semantics; whenever both sums are below
2^63 this is the exact integer difference. -/
theorem balance_spec (s : Status) :
    (s.confirmed_balance
      = i64wrap (i64ofU64 ((s.confirmed.1.map (fun o => o.value)).sum % 2 ^ 64)
          - i64ofU64 ((s.confirmed.2.map (fun i => i.value)).sum % 2 ^ 64)))
    ∧ (s.mempool_balance
      = i64wrap (i64ofU64 ((s.mempool.1.map (fun o => o.value)).sum % 2 ^ 64)
          - i64ofU64 ((s.mempool.2.map (fun i => i.value)).sum % 2 ^ 64)))
    ∧ ((s.confirmed.1.map (fun o => o.value)).sum < 2 ^ 63 →
        (s.confirmed.2.map (fun i => i.value)).sum < 2 ^ 63 →
        s.confirmed_balance
          = (((s.confirmed.1.map (fun o => o.value)).sum : Nat) : Int)
            - (((s.confirmed.2.map (fun i => i.value)).sum : Nat) : Int))
    ∧ ((s.mempool.1.map (fun o => o.value)).sum < 2 ^ 63 →
        (s.mempool.2.map (fun i => i.value)).sum < 2 ^ 63 →
        s.mempool_balance
          = (((s.mempool.1.map (fun o => o.value)).sum : Nat) : Int)
            - (((s.mempool.2.map (fun i => i.value)).sum : Nat) : Int)) := by
  have hmain : ∀ p : List FundingOutput × List SpendingInput,
      calc_balance p
        = i64wrap (i64ofU64 ((p.1.map (fun o => o.value)).sum % 2 ^ 64)
            - i64ofU64 ((p.2.map (fun i => i.value)).sum % 2 ^ 64)) := by
    intro p
    unfold calc_balance
    rw [u64sum_eq, u64sum_eq]
  have hexact : ∀ p : List FundingOutput × List SpendingInput,
      (p.1.map (fun o => o.value)).sum < 2 ^ 63 →
      (p.2.map (fun i => i.value)).sum < 2 ^ 63 →
      calc_balance p
        = (((p.1.map (fun o => o.value)).sum : Nat) : Int)
          - (((p.2.map (fun i => i.value)).sum : Nat) : Int) := by
    intro p hf hs
    rw [hmain p]
    have hf64 : (p.1.map (fun o => o.value)).sum % 2 ^ 64 = (p.1.map (fun o => o.value)).sum :=
      Nat.mod_eq_of_lt (by omega)
    have hs64 : (p.2.map (fun i => i.value)).sum % 2 ^ 64 = (p.2.map (fun i => i.value)).sum :=
      Nat.mod_eq_of_lt (by omega)
    rw [hf64, hs64]
    unfold i64ofU64
    rw [Nat.mod_eq_of_lt (a := (p.1.map (fun o => o.value)).sum) (by omega),
      Nat.mod_eq_of_lt (a := (p.2.map (fun i => i.value)).sum) (by omega)]
    rw [if_pos (by exact_mod_cast hf), if_pos (by exact_mod_cast hs)]
    apply i64wrap_eq_self
    · have h0 : (0 : Int) ≤ (((p.1.map (fun o => o.value)).sum : Nat) : Int) :=
        Int.ofNat_nonneg _
      have h2 : (((p.2.map (fun i => i.value)).sum : Nat) : Int) < 2 ^ 63 := by
        exact_mod_cast hs
      omega
    · have h0 : (0 : Int) ≤ (((p.2.map (fun i => i.value)).sum : Nat) : Int) :=
        Int.ofNat_nonneg _
      have h1 : (((p.1.map (fun o => o.value)).sum : Nat) : Int) < 2 ^ 63 := by
        exact_mod_cast hf
      omega
  exact ⟨hmain s.confirmed, hmain s.mempool, hexact s.confirmed, hexact s.mempool⟩

/-- C4 witness: a status funding 500 and spending 500 (confirmed) has
confirmed balance 500 − 500 = 0. -/
theorem balance_spec_witness :
    Status.confirmed_balance
        ⟨([⟨5, 10, 0, 500⟩], [⟨7, 11, (5, 0), 500⟩]), ([], [])⟩ = 500 - 500 := by
  have h := (balance_spec
    ⟨([⟨5, 10, 0, 500⟩], [⟨7, 11, (5, 0), 500⟩]), ([], [])⟩).2.2.1
    (by norm_num) (by norm_num)
  rw [h]
  norm_num

/-! ### find_spending_input lemmas -/

theorem foldl_append_eq_flatMap {α β : Type} (g : α → List β) (l : List α) :
    ∀ init : List β, l.foldl (fun acc x => acc ++ g x) init = init ++ l.flatMap g := by
  induction l with
  | nil => intro init; simp
  | cons a l ih =>
    intro init
    simp only [List.foldl_cons, ih (init ++ g a), List.flatMap_cons, List.append_assoc]

theorem spendingInputsOf_eq_flatMap (spending_txns : List TxnHeight)
    (funding : FundingOutput) :
    spendingInputsOf spending_txns funding
      = spending_txns.flatMap (fun t =>
          (t.txn.input.filter
            (fun i => i.1 = funding.txn_id ∧ i.2 = funding.output_index % 2 ^ 32)).map
          (fun _ => ⟨t.txn.txid, t.height, (funding.txn_id, funding.output_index),
            funding.value⟩)) := by
  unfold spendingInputsOf
  rw [foldl_append_eq_flatMap]
  simp

theorem spendingInputsOf_length (spending_txns : List TxnHeight)
    (funding : FundingOutput) :
    (spendingInputsOf spending_txns funding).length
      = spendMatchCount spending_txns funding := by
  rw [spendingInputsOf_eq_flatMap, List.length_flatMap]
  unfold spendMatchCount
  congr 1
  apply List.map_congr_left
  intro t _
  simp [Function.comp]

theorem mem_spendingInputsOf_iff (spending_txns : List TxnHeight)
    (funding : FundingOutput) (si : SpendingInput) :
    si ∈ spendingInputsOf spending_txns funding ↔
      ∃ t ∈ spending_txns,
        si = ⟨t.txn.txid, t.height, (funding.txn_id, funding.output_index), funding.value⟩
          ∧ ∃ i ∈ t.txn.input,
              i.1 = funding.txn_id ∧ i.2 = funding.output_index % 2 ^ 32 := by
  rw [spendingInputsOf_eq_flatMap, List.mem_flatMap]
  constructor
  · rintro ⟨t, ht, hsi⟩
    rcases List.mem_map.1 hsi with ⟨i, hifil, heq⟩
    rcases List.mem_filter.1 hifil with ⟨hii, hcond⟩
    refine ⟨t, ht, heq.symm, i, hii, ?_⟩
    simpa using hcond
  · rintro ⟨t, ht, hsi, i, hii, hcond⟩
    refine ⟨t, ht, ?_⟩
    exact List.mem_map.2 ⟨i, List.mem_filter.2 ⟨hii, by simpa using hcond⟩, hsi.symm⟩

/-- C5: under the chain precondition that at most one (transaction, input)
pair among the scanned candidates spends the funding outpoint (single
spend, no repeated inputs), the `assert!(spending_inputs.len() <= 1)` in
`find_spending_input` cannot fire — the call returns `Ok` — and the result
is `Some` spending input exactly when such a spender exists, carrying the
spender's txid and height and the funded outpoint and value. -/
theorem find_spending_input_spec (spending_txns : List TxnHeight)
    (funding : FundingOutput)
    (hchain : spendMatchCount spending_txns funding ≤ 1) :
    ∃ r, find_spending_input spending_txns funding = .ok r
      ∧ (r.isSome = true ↔ ∃ t ∈ spending_txns, ∃ i ∈ t.txn.input,
          i.1 = funding.txn_id ∧ i.2 = funding.output_index % 2 ^ 32)
      ∧ (∀ si, r = some si →
          si.funding_output = (funding.txn_id, funding.output_index)
            ∧ si.value = funding.value
            ∧ ∃ t ∈ spending_txns, si.txn_id = t.txn.txid ∧ si.height = t.height) := by
  have hlen : (spendingInputsOf spending_txns funding).length ≤ 1 := by
    rw [spendingInputsOf_length]
    exact hchain
  have hfind : find_spending_input spending_txns funding
      = .ok (if (spendingInputsOf spending_txns funding).length = 1
          then (spendingInputsOf spending_txns funding).head? else none) := by
    simp only [find_spending_input]
    rw [if_pos hlen]
  refine ⟨_, hfind, ?_, ?_⟩
  · by_cases hone : (spendingInputsOf spending_txns funding).length = 1
    · simp only [if_pos hone]
      have hne : spendingInputsOf spending_txns funding ≠ [] := by
        intro hc
        rw [hc] at hone
        simp at hone
      obtain ⟨a, rest, hcons⟩ := List.exists_cons_of_ne_nil hne
      constructor
      · intro _
        have ha : a ∈ spendingInputsOf spending_txns funding := by
          rw [hcons]
          exact List.mem_cons_self _ _
        rcases (mem_spendingInputsOf_iff _ _ _).1 ha with ⟨t, ht, _, i, hii, hcond⟩
        exact ⟨t, ht, i, hii, hcond⟩
      · intro _
        rw [hcons]
        simp
    · have hzero : (spendingInputsOf spending_txns funding).length = 0 := by omega
      have hnil : spendingInputsOf spending_txns funding = [] :=
        List.eq_nil_of_length_eq_zero hzero
      simp only [if_neg hone, Option.isSome_none]
      constructor
      · intro hc
        simp at hc
      · rintro ⟨t, ht, i, hii, hcond⟩
        have hmem : (⟨t.txn.txid, t.height, (funding.txn_id, funding.output_index),
            funding.value⟩ : SpendingInput) ∈ spendingInputsOf spending_txns funding :=
          (mem_spendingInputsOf_iff _ _ _).2 ⟨t, ht, rfl, i, hii, hcond⟩
        rw [hnil] at hmem
        simp at hmem
  · intro si hsi
    by_cases hone : (spendingInputsOf spending_txns funding).length = 1
    · rw [if_pos hone] at hsi
      have hmem : si ∈ spendingInputsOf spending_txns funding :=
        List.mem_of_mem_head? (hsi ▸ rfl)
      rcases (mem_spendingInputsOf_iff _ _ _).1 hmem with ⟨t, ht, heq, _, _, _⟩
      subst heq
      exact ⟨rfl, rfl, t, ht, rfl, rfl⟩
    · rw [if_neg hone] at hsi
      simp at hsi

/-- C5 witness: one candidate spender (txid 77 at height 11) with a single
input consuming outpoint (5, 0) passes the assertion and is returned. -/
theorem find_spending_input_spec_witness :
    ∃ r, find_spending_input [⟨⟨77, [(5, 0)]⟩, 11⟩] ⟨5, 10, 0, 500⟩ = .ok r
      ∧ r.isSome = true := by
  obtain ⟨r, hok, hiff, _⟩ :=
    find_spending_input_spec [⟨⟨77, [(5, 0)]⟩, 11⟩] ⟨5, 10, 0, 500⟩ (by decide)
  exact ⟨r, hok, hiff.mpr (by decide)⟩

/-! ### Merkle proof lemmas -/

theorem xor_one_eq (i : Nat) : i ^^^ 1 = if i % 2 = 0 then i + 1 else i - 1 := by
  apply Nat.eq_of_testBit_eq
  intro n
  rw [Nat.testBit_xor]
  cases n with
  | zero =>
    by_cases h : i % 2 = 0
    · have h1 : (i + 1) % 2 = 1 := by omega
      simp [Nat.testBit_zero, h, h1]
    · have h0 : i % 2 = 1 := by omega
      have h1 : (i - 1) % 2 = 0 := by omega
      simp [Nat.testBit_zero, h, h0, h1]
  | succ m =>
    by_cases h : i % 2 = 0
    · have hdiv : (i + 1) / 2 = i / 2 := by omega
      simp [h, Nat.testBit_succ, hdiv, Nat.zero_testBit]
    · have hdiv : (i - 1) / 2 = i / 2 := by omega
      simp [h, Nat.testBit_succ, hdiv, Nat.zero_testBit]

theorem sibIdx_div (i : Nat) :
    (if i % 2 = 0 then i + 1 else i - 1) / 2 = i / 2 := by
  by_cases h : i % 2 = 0 <;> simp [h] <;> omega

theorem merkleLoop_eq_siblingsSpec (mk : Nat → Nat → Nat) :
    ∀ (n : Nat) (txids : List Nat) (i : Nat), txids.length ≤ n →
      merkleLoop mk txids i = merkleSiblingsSpec mk txids i := by
  intro n
  induction n with
  | zero =>
    intro txids i h
    have h1 : txids.length ≤ 1 := by omega
    rw [merkleLoop, merkleSiblingsSpec]
    simp [h1]
  | succ n ih =>
    intro txids i h
    rw [merkleLoop, merkleSiblingsSpec]
    by_cases hlen : txids.length ≤ 1
    · simp [hlen]
    · simp only [if_neg hlen]
      rw [xor_one_eq, sibIdx_div]
      congr 1
      apply ih
      rw [length_nextLevel, length_merklePad]
      omega

/-- C6: for a block whose txid list contains the target at position `p`,
`get_merkle_proof` returns `(sibling_list, p)` where the sibling list is
built level by level — odd levels duplicate their last element, the
recorded sibling sits at index `p XOR 1`, `p` becomes `p / 2`, and the next
level applies `merklize` to consecutive pairs; in particular for position 2
of a 5-transaction block the proof has length 3 and the returned position
is 2, for any pair-hash function. -/
theorem merkle_proof_spec :
    (∀ (mk : Nat → Nat → Nat) (txids : List Nat) (tx_hash : Nat) (p : Nat),
        txids.findIdx? (fun txid => txid = tx_hash) = some p →
        get_merkle_proof mk txids tx_hash = some (merkleSiblingsSpec mk txids p, p))
    ∧ (∀ mk : Nat → Nat → Nat,
        (get_merkle_proof mk [10, 20, 30, 40, 50] 30).map
            (fun pr => (pr.1.length, pr.2)) = some ((3 : Nat), (2 : Nat))) := by
  constructor
  · intro mk txids tx_hash p hfind
    rw [get_merkle_proof, hfind]
    show some (merkleLoop mk txids p, p) = some (merkleSiblingsSpec mk txids p, p)
    rw [merkleLoop_eq_siblingsSpec mk txids.length txids p (le_refl _)]
  · intro mk
    have hfind : [10, 20, 30, 40, 50].findIdx? (fun txid => txid = 30) = some 2 := by
      decide
    rw [get_merkle_proof, hfind]
    show some (((merkleLoop mk [10, 20, 30, 40, 50] 2).length, 2) : Nat × Nat)
        = some ((3 : Nat), (2 : Nat))
    rw [merkleLoop]
    norm_num [merklePad, nextLevel]
    rw [merkleLoop]
    norm_num [merklePad, nextLevel]
    rw [merkleLoop]
    norm_num [merklePad, nextLevel]
    rw [merkleLoop]
    norm_num

/-- C6 witness: the general clause applied to a concrete 5-txid block and a
concrete pair hash, together with the concrete length-3/position-2 form. -/
theorem merkle_proof_spec_witness :
    get_merkle_proof (fun a b => a * 1000 + b + 7) [10, 20, 30, 40, 50] 30
        = some (merkleSiblingsSpec (fun a b => a * 1000 + b + 7) [10, 20, 30, 40, 50] 2, 2)
      ∧ (get_merkle_proof (fun a b => a * 1000 + b + 7) [10, 20, 30, 40, 50] 30).map
          (fun pr => (pr.1.length, pr.2)) = some ((3 : Nat), (2 : Nat)) :=
  ⟨merkle_proof_spec.1 _ _ _ _ (by decide), merkle_proof_spec.2 _⟩

/-! ### Fee estimation lemmas -/

theorem feeLoop_reaches (target : Nat) (hist : List (ℚ × Nat)) :
    ∀ (total : Nat) (last_fee_rate : ℚ) (i : Nat) (rv : ℚ × Nat),
      total + (hist.map (fun b => b.2)).sum < 2 ^ 32 →
      total + ((hist.take i).map (fun b => b.2)).sum < target →
      target ≤ total + ((hist.take (i + 1)).map (fun b => b.2)).sum →
      hist[i]? = some rv →
      feeLoop target hist total last_fee_rate = rv.1 := by
  induction hist with
  | nil =>
    intro total last i rv _ _ _ hget
    simp at hget
  | cons b rest ih =>
    obtain ⟨r, v⟩ := b
    intro total last i rv h32 hlt hge hget
    have hsum32 : total + (v + (rest.map (fun b => b.2)).sum) < 2 ^ 32 := by
      simpa using h32
    cases i with
    | zero =>
      rw [List.getElem?_cons_zero] at hget
      have hrv : rv = (r, v) := (Option.some.inj hget).symm
      subst hrv
      have hge1 : target ≤ total + v := by simpa using hge
      have hnowrap : (total + v) % 2 ^ 32 = total + v := Nat.mod_eq_of_lt (by omega)
      simp only [feeLoop, hnowrap]
      rw [if_pos hge1]
    | succ j =>
      rw [List.getElem?_cons_succ] at hget
      have hltj : total + (v + ((rest.take j).map (fun b => b.2)).sum) < target := by
        simpa [List.take_succ_cons] using hlt
      have hgej : target ≤ total + (v + ((rest.take (j + 1)).map (fun b => b.2)).sum) := by
        simpa [List.take_succ_cons] using hge
      have hnowrap : (total + v) % 2 ^ 32 = total + v := Nat.mod_eq_of_lt (by omega)
      have hnotyet : ¬ target ≤ total + v := by omega
      simp only [feeLoop, hnowrap]
      rw [if_neg hnotyet]
      exact ih (total + v) r j rv (by omega) (by omega) (by omega) hget

/-- C7 counterexample: for `target_blocks = 5000` the target
`5000 × 1,000,000` is truncated to a `u32` (705032704), so the loop stops
at the first bucket although the cumulative vsize first reaches the claimed
target only at the second bucket: the returned rate is the first bucket's
`100 × 1e-5`, not the second bucket's `50 × 1e-5`. -/
theorem estimate_fee_counterexample :
    estimate_fee [((100 : ℚ), 3000000000), ((50 : ℚ), 3000000000)] 5000
        = 100 * (1 / 100000)
    ∧ (([((100 : ℚ), 3000000000), ((50 : ℚ), 3000000000)].take 1).map
        (fun b => b.2)).sum < 5000 * 1000000
    ∧ 5000 * 1000000
        ≤ (([((100 : ℚ), 3000000000), ((50 : ℚ), 3000000000)].take 2).map
            (fun b => b.2)).sum
    ∧ (100 : ℚ) * (1 / 100000) ≠ (50 : ℚ) * (1 / 100000) := by
  refine ⟨?_, by norm_num, by norm_num, by norm_num⟩
  norm_num [estimate_fee, feeLoop]

/-- C7 (amended): `estimate_fee` never fails and returns 0 on an empty
histogram; and provided `target_blocks × 1,000,000` and the total histogram
vsize fit in a `u32` (the source accumulates in `u32` after a `usize`
cast), the loop stops at the first bucket where the cumulative vsize
reaches `target_blocks × 1,000,000` and returns that bucket's rate scaled
by `1e-5`. -/
theorem estimate_fee_amended :
    (∀ blocks : Nat, estimate_fee [] blocks = 0)
    ∧ (∀ (hist : List (ℚ × Nat)) (blocks i : Nat) (rv : ℚ × Nat),
        blocks * 1000000 < 2 ^ 32 →
        (hist.map (fun b => b.2)).sum < 2 ^ 32 →
        ((hist.take i).map (fun b => b.2)).sum < blocks * 1000000 →
        blocks * 1000000 ≤ ((hist.take (i + 1)).map (fun b => b.2)).sum →
        hist[i]? = some rv →
        estimate_fee hist blocks = rv.1 * (1 / 100000)) := by
  constructor
  · intro blocks
    simp [estimate_fee, feeLoop]
  · intro hist blocks i rv hb hs hlt hge hget
    have hloop := feeLoop_reaches (blocks * 1000000) hist 0 0 i rv
      (by simpa using hs) (by simpa using hlt) (by simpa using hge) hget
    unfold estimate_fee
    rw [Nat.mod_eq_of_lt hb]
    show feeLoop (blocks * 1000000) hist 0 0 * (1 / 100000) = rv.1 * (1 / 100000)
    rw [hloop]

/-- C7 witness: the spec's concrete scenario — histogram
`[(100, 600000), (50, 900000), (10, 2000000)]`, 2 blocks: cumulative vsize
first reaches 2,000,000 at the third bucket, so the estimate is
`10 × 1e-5`. -/
theorem estimate_fee_amended_witness :
    estimate_fee [((100 : ℚ), 600000), ((50 : ℚ), 900000), ((10 : ℚ), 2000000)] 2
      = 10 * (1 / 100000) := by
  have h := estimate_fee_amended.2
    [((100 : ℚ), 600000), ((50 : ℚ), 900000), ((10 : ℚ), 2000000)] 2 2
    ((10 : ℚ), 2000000)
    (by norm_num) (by norm_num) (by norm_num) (by norm_num) (by rfl)
  simpa using h

/-- C8 counterexample: `GET /block/<hash>/txs?start_index=7` matches no
route and yields 400 (the endpoint is `/block/<hash>/with-txs`), and on
the actual endpoint `start_index = 7` — neither a multiple of 50 nor within
the 3-transaction block — is clamped: the response is 200 with an empty
page, not 404. -/
theorem blockTxs_counterexample :
    Rest.run_server_response envC reqTxs = Rest.bad_request
    ∧ (Rest.run_server_response envC reqTxs).status = 400
    ∧ Rest.run_server_response envC reqWith
        = ⟨200, .jsonBlockTxs ⟨5, 0, []⟩ []⟩
    ∧ (Rest.run_server_response envC reqWith).status ≠ 404 :=
  ⟨rfl, rfl, rfl, by decide⟩

/-- C8 (amended): the transaction-page endpoint is
`GET /block/<hash>/with-txs`; `start_index` defaults to 0, need not be a
multiple of 50, and is clamped to the block's transaction count (an
out-of-range value yields 200 with an empty page, never 404); the page
holds up to `limit` (default 10, capped at 50) transactions starting at
the clamped index. A request to `/block/<hash>/txs` matches no route and
is answered with 400. -/
theorem blockTxs_amended :
    (∀ (env : Rest.Env) (hs ks : String) (hashv k : Nat) (block : Rest.RBlock),
      env.parseHash hs = some hashv →
      env.getBlock hashv = .ok block →
      Rest.parseNum (2 ^ 32) ks = some k →
      ∃ page : List Nat,
        page = (block.txdata.drop (min k block.txdata.length)).take
            (min (min k block.txdata.length + 10) block.txdata.length
              - min k block.txdata.length)
        ∧ Rest.run_server_response env
            ⟨.GET, ["block", hs, "with-txs"],
              fun key => if key = "start_index" then some ks else none⟩
          = ⟨200, .jsonBlockTxs { block with txdata := page } (page.map env.attachTx)⟩
        ∧ page.length ≤ 50)
    ∧ (∀ (env : Rest.Env) (hs : String) (qp : String → Option String),
        Rest.run_server_response env ⟨.GET, ["block", hs, "txs"], qp⟩
          = Rest.bad_request) := by
  constructor
  · intro env hs ks hashv k block hparse hblock hk
    refine ⟨_, rfl, ?_, ?_⟩
    · norm_num at hk
      simp only [Rest.run_server_response, Rest.handle_request]
      simp [hparse, hblock, hk]
    · have := List.length_take_le
        (min (min k block.txdata.length + 10) block.txdata.length
          - min k block.txdata.length) (block.txdata.drop (min k block.txdata.length))
      omega
  · intro env hs qp
    simp only [Rest.run_server_response, Rest.handle_request]
    rfl

/-- C8 witness: the amended clause applied to the concrete environment —
start_index 7 on a 3-transaction block yields the empty page with 200. -/
theorem blockTxs_amended_witness :
    ∃ page : List Nat,
      page = (([10, 20, 30].drop (min 7 [10, 20, 30].length)).take
          (min (min 7 [10, 20, 30].length + 10) [10, 20, 30].length
            - min 7 [10, 20, 30].length))
      ∧ Rest.run_server_response envC
          ⟨.GET, ["block", "aa", "with-txs"],
            fun key => if key = "start_index" then some "7" else none⟩
        = ⟨200, .jsonBlockTxs { height := 5, prev_blockhash := 0, txdata := page }
            (page.map envC.attachTx)⟩
      ∧ page.length ≤ 50 :=
  blockTxs_amended.1 envC "aa" "7" 1 7 ⟨5, 0, [10, 20, 30]⟩ rfl rfl (by decide)

/-- C9: whenever `handle_request` returns an error — in particular for
every request whose method and path match none of the five routes — the
server replies 400 Bad Request with body "400 Bad Request"; an unknown
path never produces a 404. -/
theorem rest_error_responses :
    (∀ (env : Rest.Env) (req : Rest.Request) (e : String),
        Rest.handle_request env req = .error e →
        Rest.run_server_response env req = Rest.bad_request
          ∧ (Rest.run_server_response env req).status = 400)
    ∧ (∀ (env : Rest.Env) (req : Rest.Request),
        Rest.isRouted req = false →
        Rest.handle_request env req = .error "endpoint does not exist"
          ∧ Rest.run_server_response env req = Rest.bad_request
          ∧ (Rest.run_server_response env req).status ≠ 404) := by
  have hserve : ∀ (env : Rest.Env) (req : Rest.Request) (e : String),
      Rest.handle_request env req = .error e →
      Rest.run_server_response env req = Rest.bad_request := by
    intro env req e he
    unfold Rest.run_server_response
    rw [he]
  constructor
  · intro env req e he
    exact ⟨hserve env req e he, by rw [hserve env req e he]; rfl⟩
  · intro env req hroute
    have herr : Rest.handle_request env req = .error "endpoint does not exist" := by
      unfold Rest.handle_request
      split
      all_goals try rfl
      all_goals simp_all [Rest.isRouted]
    refine ⟨herr, hserve env req _ herr, ?_⟩
    rw [hserve env req _ herr]
    decide

/-- C9 witness: an unknown path `/nope` is answered with the 400 response. -/
theorem rest_error_responses_witness :
    Rest.run_server_response envC ⟨.GET, ["nope"], fun _ => none⟩ = Rest.bad_request :=
  (rest_error_responses.2 envC ⟨.GET, ["nope"], fun _ => none⟩ rfl).2.1
